import Mathlib

/-!
Verification of the data-acquisition core of a terminal dashboard client
(rate-limited caching HTTP client, LRU response cache, request-key
normalization, account-id parsing, kitty-protocol image chunking, and the
message reducer).  Definitions are a shallow embedding of the source:
byte strings are `List Nat`, `HashMap` is an association list with unique
keys, `Instant`/`Duration` are `Nat` timestamps in milliseconds, and the
HTTP transport is an oracle mapping the attempt number to an outcome.
-/

set_option autoImplicit false

namespace Dota2Tui

/-- Byte strings (Rust `String` / `Vec<u8>`), compared byte-wise. -/
abbrev Str := List Nat

/-! ### Association-list model of `std::collections::HashMap` -/

/-- `HashMap::get`: value stored at `k`, if any. -/
def lookupA {κ α : Type} [DecidableEq κ] (k : κ) : List (κ × α) → Option α
| [] => none
| (k', v) :: rest => if k' = k then some v else lookupA k rest

/-- `HashMap::contains_key`. -/
def containsA {κ α : Type} [DecidableEq κ] (k : κ) (l : List (κ × α)) : Bool :=
  (lookupA k l).isSome

/-- `HashMap::insert`: replaces the value when the key is present,
otherwise appends a new binding. -/
def insertA {κ α : Type} [DecidableEq κ] (k : κ) (v : α) : List (κ × α) → List (κ × α)
| [] => [(k, v)]
| (k', v') :: rest => if k' = k then (k, v) :: rest else (k', v') :: insertA k v rest

/-- `HashMap::remove` (value discarded). -/
def removeA {κ α : Type} [DecidableEq κ] (k : κ) (l : List (κ × α)) : List (κ × α) :=
  l.filter (fun p => p.1 ≠ k)

/-- The keys of an association list. -/
def keysOf {κ α : Type} (l : List (κ × α)) : List κ :=
  l.map Prod.fst

/-! ### ResponseCache (src/api.rs, `Cache`) -/

/-- `CacheEntry { inserted_at: Instant, payload: Vec<u8> }`; the timestamp
is a millisecond count. -/
structure CacheEntry where
  inserted_at : Nat
  payload : Str
deriving DecidableEq, Repr

/-- `Cache { entries, order, ttl, max_entries }`; `order` holds the
most-recently-set key at the front. -/
structure Cache where
  entries : List (Str × CacheEntry)
  order : List Str
  ttl : Nat
  max_entries : Nat
deriving DecidableEq, Repr

/-- `Cache::new(max_entries, ttl)`. -/
def Cache.new (max_entries ttl : Nat) : Cache :=
  { entries := [], order := [], ttl := ttl, max_entries := max_entries }

/-- `Cache::get`: returns the stored payload together with its freshness
flag `inserted_at.elapsed() <= ttl`; never mutates, never drops a stale
entry.  `now` is the current time (`Instant::now`). -/
def Cache.get (c : Cache) (now : Nat) (key : Str) : Option (Str × Bool) :=
  match lookupA key c.entries with
  | some entry => some (entry.payload, decide (now - entry.inserted_at ≤ c.ttl))
  | none => none

/-- One guarded round of the `while self.order.len() > self.max_entries`
eviction loop at the end of `Cache::set`, iterated a given number of
times: each round pops the back of `order` and removes that key from
`entries`; once the bound holds the state is returned unchanged. -/
def evictStep : Cache → Nat → Cache
| c, 0 => c
| c, n + 1 =>
  if c.max_entries < c.order.length then
    match c.order.getLast? with
    | some old =>
        evictStep { c with
          order := c.order.dropLast,
          entries := removeA old c.entries } n
    | none => c
  else c

/-- The full eviction loop.  Every round shortens `order` by one, so
`order.length` rounds always run the `while` loop to completion. -/
def Cache.evictLoop (c : Cache) : Cache :=
  evictStep c c.order.length

/-- `Cache::set`: if the key is already present its old position in
`order` is retained away; the entry is (re)inserted with a fresh
timestamp, pushed to the front of `order`, and the eviction loop runs. -/
def Cache.set (c : Cache) (now : Nat) (key : Str) (payload : Str) : Cache :=
  let order₀ := if containsA key c.entries then c.order.filter (fun k => k ≠ key) else c.order
  let entries₁ := insertA key ⟨now, payload⟩ c.entries
  Cache.evictLoop { c with entries := entries₁, order := key :: order₀ }

/-- An observable operation on the response cache. -/
inductive CacheOp where
| get (now : Nat) (key : Str)
| set (now : Nat) (key : Str) (payload : Str)
deriving DecidableEq, Repr

/-- Apply one operation to the cache state (`get` reads but never
mutates; `set` inserts and evicts). -/
def applyOp (c : Cache) : CacheOp → Cache
| .get _ _ => c
| .set now key payload => c.set now key payload

/-- Apply a whole sequence of operations. -/
def applyOps (c : Cache) (ops : List CacheOp) : Cache :=
  ops.foldl applyOp c

/-- The cache bookkeeping invariant stated by the spec: `order` holds
exactly the keys of `entries`, each at most once, and never more than
`max_entries` of them. -/
def CacheInv (c : Cache) : Prop :=
  c.order.Nodup ∧ (keysOf c.entries).Nodup ∧
  (∀ k, k ∈ c.order ↔ k ∈ keysOf c.entries) ∧
  c.order.length ≤ c.max_entries

/-! ### RateLimiter (src/api.rs) -/

/-- The refill window: 60 seconds, in milliseconds. -/
def window_ms : Nat := 60000

/-- `RateLimiter { per_minute, tokens, last_refill }`. -/
structure RateLimiter where
  per_minute : Nat
  tokens : Nat
  last_refill : Nat
deriving DecidableEq, Repr

/-- `RateLimiter::new(per_minute)` at creation time `now`. -/
def RateLimiter.new (per_minute now : Nat) : RateLimiter :=
  { per_minute := per_minute, tokens := per_minute, last_refill := now }

/-- `RateLimiter::refill`: resets the bucket only when a full window has
elapsed since `last_refill`. -/
def RateLimiter.refill (rl : RateLimiter) (now : Nat) : RateLimiter :=
  if window_ms ≤ now - rl.last_refill then
    { rl with tokens := rl.per_minute, last_refill := now }
  else rl

/-- `RateLimiter::acquire` at time `now`.  Result: the new limiter state,
the optional wait duration that was slept (`None` = returned immediately),
and the time at which the call returns.  The `tokens == 0` branch sleeps
`60s - elapsed(last_refill)` (saturating), refills, and returns the wait
without consuming a token; otherwise one token is consumed. -/
def RateLimiter.acquire (rl : RateLimiter) (now : Nat) :
    RateLimiter × Option Nat × Nat :=
  let rl₁ := rl.refill now
  if rl₁.tokens = 0 then
    let wait := window_ms - (now - rl₁.last_refill)
    let now₂ := now + wait
    (rl₁.refill now₂, some wait, now₂)
  else
    ({ rl₁ with tokens := rl₁.tokens - 1 }, none, now)

/-- A sequence of `acquire` calls, one at each listed time; collects the
final state and the list of optional waits. -/
def acquireSeq (rl : RateLimiter) : List Nat → RateLimiter × List (Option Nat)
| [] => (rl, [])
| t :: ts =>
    let r := rl.acquire t
    let rest := acquireSeq r.1 ts
    (rest.1, r.2.1 :: rest.2)

/-! ### Request-key normalization (src/api.rs, `build_cache_key`) -/

/-- `format!("{k}={v}")` over one query pair; byte 61 is `=`. -/
def kvBytes (p : Str × Str) : Str :=
  p.1 ++ 61 :: p.2

/-- `Vec::join("&")`; byte 38 is `&`. -/
def joinAmp : List Str → Str
| [] => []
| [s] => s
| s :: rest => s ++ 38 :: joinAmp rest

/-- `Vec::sort` on byte strings: lexicographic byte order. -/
def sortStrs (l : List Str) : List Str :=
  List.insertionSort (· ≤ ·) l

/-- `build_cache_key` (src/api.rs): with query parameters, the `k=v`
pairs are formatted, sorted, joined with `&`, and appended to the url
after `?` (byte 63); without, the url itself is the key. -/
def build_cache_key (url : Str) (query : Option (List (Str × Str))) : Str :=
  match query with
  | some params => url ++ 63 :: joinAmp (sortStrs (params.map kvBytes))
  | none => url

/-! ### Account-id normalization (src/input.rs, `parse_account_id`) -/

/-- `u32::MAX`. -/
def u32_max : Nat := 4294967295

/-- The fixed offset between 64-bit platform ids and 32-bit account ids. -/
def STEAMID64_BASE : Nat := 76561197960265728

/-- Numeric core of `parse_account_id` (src/input.rs): `value` is the u64
obtained from parsing the trimmed input (non-numeric text already failed
with "SteamID must be numeric" before this point).  The Rust cast
`as u32` truncates, i.e. reduces mod `2^32`. -/
def parse_account_id (value : Nat) : Except String Nat :=
  if STEAMID64_BASE ≤ value then .ok ((value - STEAMID64_BASE) % 2 ^ 32)
  else if value ≤ u32_max then .ok value
  else .error "SteamID too large"

/-! ### FetchClient retry loop (src/api.rs, `ApiClient::get_json`) -/

/-- `backoff(attempt)` in milliseconds. -/
def backoff (attempt : Nat) : Nat :=
  if attempt = 1 then 200 else if attempt = 2 then 500 else 900

/-- Outcome of one HTTP send, as observed by `get_json`: a success body,
a non-success status, or a transport error whose `retryable` flag models
`is_timeout() || is_connect() || is_request()`. -/
inductive FetchOutcome where
| success (body : Str)
| httpError (status : Nat)
| transportError (retryable : Bool)
deriving DecidableEq, Repr

/-- The attempt failed (non-2xx status or transport error). -/
def FetchOutcome.isFailure : FetchOutcome → Bool
| .success _ => false
| .httpError _ => true
| .transportError _ => true

/-- The attempt failed in a way the loop retries when `attempt < 2`:
every non-success status retries; a transport error retries only when
its retryable flag is set. -/
def FetchOutcome.isRetryableFailure : FetchOutcome → Bool
| .success _ => false
| .httpError _ => true
| .transportError r => r

/-- Errors propagated out of `get_json`. -/
inductive GetErr where
| httpStatus (status : Nat)
| transport
| decodeFail (msg : String)
deriving DecidableEq, Repr

/-- The shared mutable state a `get_json` call touches: the response
cache and the rate limiter (both behind mutexes in the source). -/
structure ClientState where
  cache : Cache
  limiter : RateLimiter
deriving DecidableEq, Repr

/-- Result of a `get_json` call: decoded value or error, the client state
after the call, the return time, the number of HTTP sends performed, and
the number of in-flight-semaphore permits acquired (each permit is
dropped again when its attempt ends, so the semaphore's count is restored
by the time the call returns). -/
structure GetJsonResult (T : Type) where
  result : Except GetErr T
  state : ClientState
  now : Nat
  sends : Nat
  permits : Nat

/-- `serde_json::from_slice` lifted into the `get_json` error type. -/
def decodeRes {T : Type} (decode : Str → Except String T) (bytes : Str) : Except GetErr T :=
  match decode bytes with
  | .ok v => .ok v
  | .error e => .error (.decodeFail e)

/-- The value `get_json` produces once retries are exhausted: the decoded
stale payload when a cache entry was captured at the start of the call,
otherwise the terminal error of the final outcome. -/
def fallbackRes {T : Type} (decode : Str → Except String T) (cached : Option (Str × Bool))
    (outcome : FetchOutcome) : Except GetErr T :=
  match cached with
  | some (stale, _) => decodeRes decode stale
  | none =>
    match outcome with
    | .httpError status => .error (.httpStatus status)
    | _ => .error .transport

/-- The retry loop of `get_json`, attempts numbered from 1.  Each
iteration acquires a semaphore permit, then a rate-limiter token
(possibly sleeping), then sends; `cached` is the cache lookup captured
once before the loop, consulted as stale fallback once retries are
exhausted.  An unretryable or final failure with no cached entry
propagates the error.  The first argument is an iteration bound: the
`attempt < 2` guard allows at most two iterations, so the bound `2` used
by `get_json` always runs the loop to completion and the out-of-fuel
default is unreachable. -/
def getJsonLoop {T : Type} (decode : Str → Except String T) (key : Str)
    (transport : Nat → FetchOutcome) (cached : Option (Str × Bool)) :
    Nat → Nat → ClientState → Nat → GetJsonResult T
| 0, _, st, now =>
  { result := .error .transport, state := st, now := now, sends := 0, permits := 0 }
| fuel + 1, attempt, st, now =>
  let acq := st.limiter.acquire now
  let limiter₁ := acq.1
  let now₁ := acq.2.2
  match transport attempt with
  | .success body =>
      { result := decodeRes decode body,
        state := { cache := st.cache.set now₁ key body, limiter := limiter₁ },
        now := now₁, sends := 1, permits := 1 }
  | .httpError status =>
      if attempt < 2 then
        let rest := getJsonLoop decode key transport cached fuel (attempt + 1)
          { cache := st.cache, limiter := limiter₁ } (now₁ + backoff attempt)
        { rest with sends := rest.sends + 1, permits := rest.permits + 1 }
      else
        match cached with
        | some (stale, _) =>
            { result := decodeRes decode stale,
              state := { cache := st.cache, limiter := limiter₁ },
              now := now₁, sends := 1, permits := 1 }
        | none =>
            { result := .error (.httpStatus status),
              state := { cache := st.cache, limiter := limiter₁ },
              now := now₁, sends := 1, permits := 1 }
  | .transportError r =>
      if attempt < 2 ∧ r = true then
        let rest := getJsonLoop decode key transport cached fuel (attempt + 1)
          { cache := st.cache, limiter := limiter₁ } (now₁ + backoff attempt)
        { rest with sends := rest.sends + 1, permits := rest.permits + 1 }
      else
        match cached with
        | some (stale, _) =>
            { result := decodeRes decode stale,
              state := { cache := st.cache, limiter := limiter₁ },
              now := now₁, sends := 1, permits := 1 }
        | none =>
            { result := .error .transport,
              state := { cache := st.cache, limiter := limiter₁ },
              now := now₁, sends := 1, permits := 1 }

/-- `ApiClient::get_json` (src/api.rs): computes the request key, returns
a fresh cache hit immediately with no attempt, permit or token, and
otherwise runs the retry loop with the captured cache lookup. -/
def get_json {T : Type} (decode : Str → Except String T) (url : Str)
    (query : Option (List (Str × Str))) (transport : Nat → FetchOutcome)
    (st : ClientState) (now : Nat) : GetJsonResult T :=
  let key := build_cache_key url query
  let cached := st.cache.get now key
  match cached with
  | some (payload, true) =>
      { result := decodeRes decode payload, state := st, now := now,
        sends := 0, permits := 0 }
  | _ => getJsonLoop decode key transport cached 2 1 st now

/-! ### Kitty image chunking (src/image.rs, `write_kitty_image`) -/

/-- One 6-bit value as its standard base64 alphabet byte. -/
def b64Char (i : Nat) : Nat :=
  if i < 26 then 65 + i
  else if i < 52 then 97 + (i - 26)
  else if i < 62 then 48 + (i - 52)
  else if i = 62 then 43
  else 47

/-- Byte 61, the `=` padding character. -/
def b64Pad : Nat := 61

/-- `base64::STANDARD.encode`: each group of three input bytes becomes
four alphabet bytes; a trailing group of one or two bytes is completed
with `=` padding. -/
def base64Encode : List Nat → List Nat
| [] => []
| [a] => [b64Char (a / 4), b64Char (a % 4 * 16), b64Pad, b64Pad]
| [a, b] => [b64Char (a / 4), b64Char (a % 4 * 16 + b / 16), b64Char (b % 16 * 4), b64Pad]
| a :: b :: c :: rest =>
    b64Char (a / 4) :: b64Char (a % 4 * 16 + b / 16) ::
    b64Char (b % 16 * 4 + c / 64) :: b64Char (c % 64) :: base64Encode rest

/-- The fixed kitty chunk size. -/
def kitty_chunk_size : Nat := 4096

/-- `slice::chunks(4096)`, iterated under an explicit bound: every round
emits one chunk and drops 4096 elements, so a bound of `l.length` always
exhausts the input (each round consumes at least one element) and the
out-of-fuel branch is unreachable from `chunks4096`. -/
def chunksStep : Nat → List Nat → List (List Nat)
| _, [] => []
| 0, _ :: _ => []
| fuel + 1, l => l.take kitty_chunk_size :: chunksStep fuel (l.drop kitty_chunk_size)

/-- `slice::chunks(4096)` over the base64 text. -/
def chunks4096 (l : List Nat) : List (List Nat) :=
  chunksStep l.length l

/-- One escape-sequence chunk emitted by `write_kitty_image`: the header
`\x1b_Ga=T,f=100,c={width},r={height},m={more};` followed by the chunk
data and the terminator. -/
structure KittyChunk where
  width : Nat
  height : Nat
  more : Nat
  data : List Nat
deriving DecidableEq, Repr

/-- The emit loop of `write_kitty_image`: `m = 1` while `chunks.peek()`
is `Some`, `m = 0` on the final chunk. -/
def kittyChunkLoop (width height : Nat) : List (List Nat) → List KittyChunk
| [] => []
| [c] => [⟨width, height, 0, c⟩]
| c :: rest@(_ :: _) => ⟨width, height, 1, c⟩ :: kittyChunkLoop width height rest

/-- `write_kitty_image` (src/image.rs): base64-encode the payload, split
it into 4096-byte chunks, and wrap each chunk in a kitty graphics header
carrying the more-chunks-follow flag. -/
def write_kitty_image (bytes : List Nat) (width height : Nat) : List KittyChunk :=
  kittyChunkLoop width height (chunks4096 (base64Encode bytes))

/-! ### Reducer: `Message::PlayerAvatarLoaded` (src/app.rs, `handle_message`) -/

/-- The fields of `App` read or written by the `PlayerAvatarLoaded` arm
of `handle_message`, together with the displayed avatar URL. -/
structure AppAvatarState where
  account_id : Option Nat
  avatar_url : Option Str
  avatar_loading : Bool
  player_avatars : List (Nat × Str)
  player_avatar_requests : List Nat
  image_inflight : List Str
deriving DecidableEq, Repr

/-- The `Message::PlayerAvatarLoaded { account_id, result }` arm of
`handle_message` (src/app.rs): drop the id from the request-tracking set,
record the resolved URL in the `player_avatars` map on `Ok(Some(url))`,
then run the trailing `avatar_loading = !image_inflight.is_empty()`
executed after every message.  (`save_avatar_map` is disk I/O with no
effect on the state.) -/
def handle_message_player_avatar_loaded (app : AppAvatarState) (account_id : Nat)
    (result : Except String (Option Str)) : AppAvatarState :=
  let app₁ := { app with
    player_avatar_requests := app.player_avatar_requests.filter (fun i => i ≠ account_id) }
  let app₂ :=
    match result with
    | .ok (some url) =>
        { app₁ with player_avatars := insertA account_id url app₁.player_avatars }
    | _ => app₁
  { app₂ with avatar_loading := !app₂.image_inflight.isEmpty }

/-! ## Supporting lemmas -/

theorem lookupA_isSome_iff_mem_keys {κ α : Type} [DecidableEq κ] (k : κ) (l : List (κ × α)) :
    (lookupA k l).isSome = true ↔ k ∈ keysOf l := by
  induction l with
  | nil => simp [lookupA, keysOf]
  | cons p rest ih =>
    rcases p with ⟨k', v⟩
    by_cases h : k' = k
    · subst h
      simp [lookupA, keysOf]
    · simp [lookupA, keysOf, h, ih]
      tauto

theorem sortStrs_eq_of_perm {l1 l2 : List Str} (h : l1.Perm l2) :
    sortStrs l1 = sortStrs l2 :=
  List.eq_of_perm_of_sorted
    (((List.perm_insertionSort _ l1).trans h).trans (List.perm_insertionSort _ l2).symm)
    (List.sorted_insertionSort _ l1)
    (List.sorted_insertionSort _ l2)

theorem acquireSeq_no_wait (pm t0 : Nat) :
    ∀ (ts : List Nat) (c : Nat),
      ts.length ≤ c →
      (∀ t' ∈ ts, t0 ≤ t' ∧ t' < t0 + window_ms) →
      acquireSeq ⟨pm, c, t0⟩ ts =
        (⟨pm, c - ts.length, t0⟩, List.replicate ts.length none) := by
  intro ts
  induction ts with
  | nil =>
    intro c _ _
    simp [acquireSeq]
  | cons t ts ih =>
    intro c hc hw
    have ht := hw t (List.mem_cons_self t ts)
    simp only [List.length_cons] at hc
    have hre : RateLimiter.refill ⟨pm, c, t0⟩ t = ⟨pm, c, t0⟩ := by
      simp only [RateLimiter.refill]
      rw [if_neg]
      omega
    have hacq : RateLimiter.acquire ⟨pm, c, t0⟩ t = (⟨pm, c - 1, t0⟩, none, t) := by
      simp only [RateLimiter.acquire, hre]
      rw [if_neg]
      omega
    simp only [acquireSeq, hacq]
    rw [ih (c - 1) (by omega) (fun t' ht' => hw t' (List.mem_cons_of_mem _ ht'))]
    simp only [List.length_cons, List.replicate_succ]
    have : c - 1 - ts.length = c - (ts.length + 1) := by omega
    rw [this]

theorem getJsonLoop_succ {T : Type} (decode : Str → Except String T) (key : Str)
    (transport : Nat → FetchOutcome) (cached : Option (Str × Bool))
    (fuel attempt : Nat) (st : ClientState) (now : Nat) :
    getJsonLoop decode key transport cached (fuel + 1) attempt st now =
      (let acq := st.limiter.acquire now
       let limiter₁ := acq.1
       let now₁ := acq.2.2
       match transport attempt with
       | .success body =>
           { result := decodeRes decode body,
             state := { cache := st.cache.set now₁ key body, limiter := limiter₁ },
             now := now₁, sends := 1, permits := 1 }
       | .httpError status =>
           if attempt < 2 then
             let rest := getJsonLoop decode key transport cached fuel (attempt + 1)
               { cache := st.cache, limiter := limiter₁ } (now₁ + backoff attempt)
             { rest with sends := rest.sends + 1, permits := rest.permits + 1 }
           else
             match cached with
             | some (stale, _) =>
                 { result := decodeRes decode stale,
                   state := { cache := st.cache, limiter := limiter₁ },
                   now := now₁, sends := 1, permits := 1 }
             | none =>
                 { result := .error (.httpStatus status),
                   state := { cache := st.cache, limiter := limiter₁ },
                   now := now₁, sends := 1, permits := 1 }
       | .transportError r =>
           if attempt < 2 ∧ r = true then
             let rest := getJsonLoop decode key transport cached fuel (attempt + 1)
               { cache := st.cache, limiter := limiter₁ } (now₁ + backoff attempt)
             { rest with sends := rest.sends + 1, permits := rest.permits + 1 }
           else
             match cached with
             | some (stale, _) =>
                 { result := decodeRes decode stale,
                   state := { cache := st.cache, limiter := limiter₁ },
                   now := now₁, sends := 1, permits := 1 }
             | none =>
                 { result := .error .transport,
                   state := { cache := st.cache, limiter := limiter₁ },
                   now := now₁, sends := 1, permits := 1 }) := rfl

theorem getJsonLoop_final_failure {T : Type} (decode : Str → Except String T) (key : Str)
    (transport : Nat → FetchOutcome) (cached : Option (Str × Bool))
    (st : ClientState) (now : Nat)
    (h2 : (transport 2).isFailure = true) :
    (getJsonLoop decode key transport cached 1 2 st now).sends = 1 ∧
    (getJsonLoop decode key transport cached 1 2 st now).permits = 1 ∧
    (getJsonLoop decode key transport cached 1 2 st now).result =
      fallbackRes decode cached (transport 2) := by
  rw [getJsonLoop_succ]
  cases hT : transport 2 with
  | success body =>
    rw [hT] at h2
    simp [FetchOutcome.isFailure] at h2
  | httpError status =>
    rcases cached with _ | ⟨p, fr⟩ <;> simp [fallbackRes, hT]
  | transportError r =>
    rcases cached with _ | ⟨p, fr⟩ <;> simp [fallbackRes, hT]

theorem getJsonLoop_retry_failure {T : Type} (decode : Str → Except String T) (key : Str)
    (transport : Nat → FetchOutcome) (cached : Option (Str × Bool))
    (st : ClientState) (now : Nat)
    (h1 : (transport 1).isRetryableFailure = true)
    (h2 : (transport 2).isFailure = true) :
    (getJsonLoop decode key transport cached 2 1 st now).sends = 2 ∧
    (getJsonLoop decode key transport cached 2 1 st now).permits = 2 ∧
    (getJsonLoop decode key transport cached 2 1 st now).result =
      fallbackRes decode cached (transport 2) := by
  rw [getJsonLoop_succ]
  cases hT : transport 1 with
  | success body =>
    rw [hT] at h1
    simp [FetchOutcome.isRetryableFailure] at h1
  | httpError status =>
    obtain ⟨hs, hp, hr⟩ := getJsonLoop_final_failure decode key transport cached
      ⟨st.cache, (st.limiter.acquire now).1⟩
      ((st.limiter.acquire now).2.2 + backoff 1) h2
    simp [hs, hp, hr]
  | transportError r =>
    rw [hT] at h1
    simp only [FetchOutcome.isRetryableFailure] at h1
    subst h1
    obtain ⟨hs, hp, hr⟩ := getJsonLoop_final_failure decode key transport cached
      ⟨st.cache, (st.limiter.acquire now).1⟩
      ((st.limiter.acquire now).2.2 + backoff 1) h2
    simp [hs, hp, hr]

theorem lookupA_insertA {κ α : Type} [DecidableEq κ] (k k' : κ) (v : α) (l : List (κ × α)) :
    lookupA k (insertA k' v l) = if k' = k then some v else lookupA k l := by
  induction l with
  | nil => simp [insertA, lookupA]
  | cons p rest ih =>
    rcases p with ⟨k2, v2⟩
    simp only [insertA]
    by_cases h1 : k2 = k' <;> by_cases h2 : k' = k <;>
      simp_all [lookupA]

theorem mem_keys_insertA {κ α : Type} [DecidableEq κ] (a k : κ) (v : α) (l : List (κ × α)) :
    a ∈ keysOf (insertA k v l) ↔ a = k ∨ a ∈ keysOf l := by
  rw [← lookupA_isSome_iff_mem_keys, ← lookupA_isSome_iff_mem_keys, lookupA_insertA]
  by_cases h : k = a
  · simp [h]
  · simp [h, show ¬ a = k from fun he => h he.symm]

theorem nodup_keys_insertA {κ α : Type} [DecidableEq κ] (k : κ) (v : α) (l : List (κ × α))
    (h : (keysOf l).Nodup) : (keysOf (insertA k v l)).Nodup := by
  induction l with
  | nil => simp [insertA, keysOf]
  | cons p rest ih =>
    rcases p with ⟨k2, v2⟩
    simp only [keysOf, List.map_cons, List.nodup_cons] at h
    by_cases h1 : k2 = k
    · subst h1
      simp only [insertA, if_true, keysOf, List.map_cons, List.nodup_cons]
      exact h
    · simp only [insertA, if_neg h1, keysOf, List.map_cons, List.nodup_cons]
      refine ⟨?_, ih h.2⟩
      show k2 ∉ keysOf (insertA k v rest)
      rw [mem_keys_insertA]
      push_neg
      exact ⟨h1, h.1⟩

theorem lookupA_removeA {κ α : Type} [DecidableEq κ] (k k' : κ) (l : List (κ × α)) :
    lookupA k (removeA k' l) = if k = k' then none else lookupA k l := by
  induction l with
  | nil => simp [removeA, lookupA]
  | cons p rest ih =>
    rcases p with ⟨k2, v2⟩
    simp only [removeA, List.filter_cons] at *
    by_cases h1 : k2 = k' <;> by_cases h2 : k = k'
    · simp_all [lookupA]
    · have h2s : ¬ k' = k := fun he => h2 he.symm
      simp_all [lookupA]
    · have h1s : ¬ k' = k2 := fun he => h1 he.symm
      simp_all [lookupA]
    · simp_all [lookupA]

theorem mem_keys_removeA {κ α : Type} [DecidableEq κ] (a k : κ) (l : List (κ × α)) :
    a ∈ keysOf (removeA k l) ↔ a ∈ keysOf l ∧ a ≠ k := by
  rw [← lookupA_isSome_iff_mem_keys, ← lookupA_isSome_iff_mem_keys, lookupA_removeA]
  by_cases h : a = k <;> simp [h]

theorem nodup_keys_removeA {κ α : Type} [DecidableEq κ] (k : κ) (l : List (κ × α))
    (h : (keysOf l).Nodup) : (keysOf (removeA k l)).Nodup :=
  ((List.filter_sublist l).map Prod.fst).nodup h

theorem length_filter_ne_of_mem (l : List Str) (a : Str) (hnd : l.Nodup) (ha : a ∈ l) :
    (l.filter (fun k => k ≠ a)).length + 1 = l.length := by
  induction l with
  | nil => cases ha
  | cons b rest ih =>
    rw [List.nodup_cons] at hnd
    rcases List.mem_cons.mp ha with h | h
    · subst h
      have : rest.filter (fun k => k ≠ a) = rest :=
        List.filter_eq_self.mpr (fun b hb => by
          simp only [ne_eq, decide_eq_true_eq]
          intro he
          exact hnd.1 (he ▸ hb))
      simp only [List.filter_cons, this, List.length_cons]
      rw [if_neg (by simp)]
    · have hba : b ≠ a := fun he => hnd.1 (he ▸ h)
      rw [List.filter_cons, if_pos (by simpa using hba), List.length_cons, List.length_cons,
        ← ih hnd.2 h]

theorem evictStep_fields : ∀ (n : Nat) (c : Cache),
    (evictStep c n).max_entries = c.max_entries ∧ (evictStep c n).ttl = c.ttl
| 0, c => ⟨rfl, rfl⟩
| n + 1, c => by
  simp only [evictStep]
  by_cases hlt : c.max_entries < c.order.length
  · rw [if_pos hlt]
    cases c.order.getLast? with
    | none => exact ⟨rfl, rfl⟩
    | some old => exact evictStep_fields n _
  · rw [if_neg hlt]
    exact ⟨rfl, rfl⟩

theorem evictStep_order : ∀ (n : Nat) (c : Cache), c.order.length ≤ c.max_entries + n →
    (evictStep c n).order = c.order.take c.max_entries
| 0, c, h => by
  simp only [evictStep]
  exact (List.take_of_length_le (by omega)).symm
| n + 1, c, h => by
  simp only [evictStep]
  by_cases hlt : c.max_entries < c.order.length
  · rw [if_pos hlt]
    cases hl : c.order.getLast? with
    | none =>
      rw [List.getLast?_eq_none_iff] at hl
      rw [hl] at hlt
      simp at hlt
    | some old =>
      rw [evictStep_order n _ (by simp only [List.length_dropLast]; omega)]
      simp only [List.dropLast_eq_take, List.take_take]
      congr 1
      rw [min_eq_left]
      omega
  · rw [if_neg hlt]
    exact (List.take_of_length_le (by omega)).symm

theorem evictStep_inv : ∀ (n : Nat) (c : Cache),
    c.order.Nodup → (keysOf c.entries).Nodup →
    (∀ k, k ∈ c.order ↔ k ∈ keysOf c.entries) →
    (evictStep c n).order.Nodup ∧ (keysOf (evictStep c n).entries).Nodup ∧
    (∀ k, k ∈ (evictStep c n).order ↔ k ∈ keysOf (evictStep c n).entries)
| 0, c, h1, h2, h3 => ⟨h1, h2, h3⟩
| n + 1, c, h1, h2, h3 => by
  simp only [evictStep]
  by_cases hlt : c.max_entries < c.order.length
  · rw [if_pos hlt]
    cases hl : c.order.getLast? with
    | none => exact ⟨h1, h2, h3⟩
    | some old =>
      obtain ⟨ys, hys⟩ := List.getLast?_eq_some_iff.mp hl
      have hysnd : ys.Nodup := by
        rw [hys, List.nodup_append] at h1
        exact h1.1
      have hdisj : ∀ x ∈ ys, x ≠ old := by
        intro x hx he
        rw [hys, List.nodup_append] at h1
        exact h1.2.2 hx (by simp [he])
      apply evictStep_inv n
      · simp only [hys, List.dropLast_concat]
        exact hysnd
      · exact nodup_keys_removeA old c.entries h2
      · intro k
        simp only [hys, List.dropLast_concat, mem_keys_removeA]
        constructor
        · intro hk
          refine ⟨(h3 k).mp (by rw [hys]; exact List.mem_append_left _ hk), hdisj k hk⟩
        · rintro ⟨hk, hne⟩
          have hmem := (h3 k).mpr hk
          rw [hys] at hmem
          rcases List.mem_append.mp hmem with h | h
          · exact h
          · simp at h
            exact absurd h hne
  · rw [if_neg hlt]
    exact ⟨h1, h2, h3⟩

theorem evictLoop_order (c : Cache) :
    (Cache.evictLoop c).order = c.order.take c.max_entries :=
  evictStep_order c.order.length c (by omega)

theorem evictLoop_inv (c : Cache) (h1 : c.order.Nodup) (h2 : (keysOf c.entries).Nodup)
    (h3 : ∀ k, k ∈ c.order ↔ k ∈ keysOf c.entries) : CacheInv (Cache.evictLoop c) := by
  obtain ⟨g1, g2, g3⟩ := evictStep_inv c.order.length c h1 h2 h3
  refine ⟨g1, g2, g3, ?_⟩
  have ho := evictLoop_order c
  have hf := (evictStep_fields c.order.length c).1
  simp only [Cache.evictLoop] at *
  rw [ho, hf, List.length_take]
  exact min_le_left _ _

theorem set_fields (c : Cache) (now : Nat) (key payload : Str) :
    (c.set now key payload).max_entries = c.max_entries ∧
    (c.set now key payload).ttl = c.ttl := by
  simp only [Cache.set, Cache.evictLoop]
  exact evictStep_fields _ _

theorem set_order (c : Cache) (now : Nat) (key payload : Str) :
    (c.set now key payload).order =
      (key :: (if containsA key c.entries = true then c.order.filter (fun k => k ≠ key)
        else c.order)).take c.max_entries := by
  simp only [Cache.set]
  rw [evictLoop_order]

theorem setInv (c : Cache) (now : Nat) (key payload : Str) (h : CacheInv c) :
    CacheInv (c.set now key payload) := by
  obtain ⟨h1, h2, h3, h4⟩ := h
  simp only [Cache.set]
  apply evictLoop_inv
  · show (key :: (if containsA key c.entries = true then c.order.filter (fun k => k ≠ key)
      else c.order)).Nodup
    rw [List.nodup_cons]
    by_cases hk : containsA key c.entries = true
    · rw [if_pos hk]
      exact ⟨by simp [List.mem_filter], h1.filter _⟩
    · rw [if_neg hk]
      refine ⟨?_, h1⟩
      intro hmem
      have hkeys : key ∈ keysOf c.entries := (h3 key).mp hmem
      rw [← lookupA_isSome_iff_mem_keys] at hkeys
      exact hk hkeys
  · show (keysOf (insertA key ⟨now, payload⟩ c.entries)).Nodup
    exact nodup_keys_insertA _ _ _ h2
  · intro k
    show k ∈ key :: (if containsA key c.entries = true then c.order.filter (fun k => k ≠ key)
      else c.order) ↔ k ∈ keysOf (insertA key ⟨now, payload⟩ c.entries)
    rw [mem_keys_insertA, List.mem_cons]
    by_cases hk : containsA key c.entries = true
    · rw [if_pos hk]
      constructor
      · rintro (he | hmem)
        · exact Or.inl he
        · rw [List.mem_filter] at hmem
          exact Or.inr ((h3 k).mp hmem.1)
      · rintro (he | hmem)
        · exact Or.inl he
        · by_cases hke : k = key
          · exact Or.inl hke
          · refine Or.inr ?_
            rw [List.mem_filter]
            exact ⟨(h3 k).mpr hmem, by simpa using hke⟩
    · rw [if_neg hk, h3 k]

theorem applyOps_append (c : Cache) (l1 l2 : List CacheOp) :
    applyOps c (l1 ++ l2) = applyOps (applyOps c l1) l2 :=
  List.foldl_append _ _ _ _

theorem insert_distinct_state (m ttl now : Nat) (pf : Str → Str) (ks : List Str) :
    ks.Nodup →
      (applyOps (Cache.new m ttl) (ks.map (fun k => CacheOp.set now k (pf k)))).order =
        ks.reverse.take m ∧
      CacheInv (applyOps (Cache.new m ttl) (ks.map (fun k => CacheOp.set now k (pf k)))) ∧
      (applyOps (Cache.new m ttl) (ks.map (fun k => CacheOp.set now k (pf k)))).max_entries = m := by
  induction ks using List.reverseRecOn with
  | nil =>
    intro _
    exact ⟨by simp [applyOps, Cache.new],
      ⟨List.nodup_nil, List.nodup_nil, fun _ => Iff.rfl, Nat.zero_le _⟩, rfl⟩
  | append_singleton ks k ih =>
    intro hnd
    rw [List.nodup_append] at hnd
    obtain ⟨hnd1, -, hdisj⟩ := hnd
    obtain ⟨iho, ihinv, ihm⟩ := ih hnd1
    rw [List.map_append, applyOps_append]
    simp only [List.map_cons, List.map_nil]
    have happ : applyOps (applyOps (Cache.new m ttl) (ks.map (fun k => CacheOp.set now k (pf k))))
        [CacheOp.set now k (pf k)] =
        (applyOps (Cache.new m ttl) (ks.map (fun k => CacheOp.set now k (pf k)))).set now k (pf k) := rfl
    rw [happ]
    have hnotmem : containsA k
        (applyOps (Cache.new m ttl) (ks.map (fun k => CacheOp.set now k (pf k)))).entries = false := by
      cases hcc : containsA k
          (applyOps (Cache.new m ttl) (ks.map (fun k => CacheOp.set now k (pf k)))).entries with
      | false => rfl
      | true =>
        exfalso
        have hkeys : k ∈ keysOf
            (applyOps (Cache.new m ttl) (ks.map (fun k => CacheOp.set now k (pf k)))).entries := by
          rw [← lookupA_isSome_iff_mem_keys]
          exact hcc
        have hmemo := (ihinv.2.2.1 k).mpr hkeys
        rw [iho] at hmemo
        have hks : k ∈ ks := List.mem_reverse.mp ((List.take_sublist _ _).subset hmemo)
        exact hdisj hks (by simp)
    refine ⟨?_, setInv _ _ _ _ ihinv, ?_⟩
    · rw [set_order, hnotmem, iho, ihm, List.reverse_append]
      simp only [List.reverse_cons, List.reverse_nil, List.nil_append, List.singleton_append,
        Bool.false_eq_true, if_false]
      cases m with
      | zero => simp
      | succ mm =>
        rw [List.take_succ_cons, List.take_succ_cons, List.take_take, min_eq_left (by omega)]
    · rw [(set_fields _ now k (pf k)).1, ihm]

theorem base64Encode_length : ∀ (l : List Nat),
    (base64Encode l).length = 4 * ((l.length + 2) / 3)
| [] => by simp [base64Encode]
| [a] => by simp [base64Encode]
| [a, b] => by simp [base64Encode]
| a :: b :: c :: rest => by
  simp only [base64Encode, List.length_cons]
  rw [base64Encode_length rest]
  omega

theorem chunksStep_join : ∀ (fuel : Nat) (l : List Nat), l.length ≤ fuel →
    (chunksStep fuel l).flatten = l
| _, [], _ => by simp [chunksStep]
| 0, a :: rest, h => by simp at h
| fuel + 1, a :: rest, h => by
  simp only [chunksStep, List.flatten_cons]
  rw [chunksStep_join fuel ((a :: rest).drop kitty_chunk_size)
    (by simp [kitty_chunk_size] at *; omega)]
  exact List.take_append_drop _ _

theorem chunksStep_length : ∀ (fuel : Nat) (l : List Nat), l.length ≤ fuel →
    (chunksStep fuel l).length = (l.length + (kitty_chunk_size - 1)) / kitty_chunk_size
| _, [], _ => by simp [chunksStep, kitty_chunk_size]
| 0, a :: rest, h => by simp at h
| fuel + 1, a :: rest, h => by
  simp only [chunksStep, List.length_cons]
  rw [chunksStep_length fuel ((a :: rest).drop kitty_chunk_size)
    (by simp [kitty_chunk_size] at *; omega)]
  simp only [List.length_drop, List.length_cons, kitty_chunk_size]
  omega

theorem chunksStep_chunk_le : ∀ (fuel : Nat) (l c : List Nat), c ∈ chunksStep fuel l →
    c.length ≤ kitty_chunk_size
| _, [], c => by simp [chunksStep]
| 0, a :: rest, c => by simp [chunksStep]
| fuel + 1, a :: rest, c => by
  intro hmem
  simp only [chunksStep, List.mem_cons] at hmem
  rcases hmem with h | h
  · subst h
    exact List.length_take_le _ _
  · exact chunksStep_chunk_le fuel _ c h

theorem kittyChunkLoop_map_data (w h : Nat) : ∀ (L : List (List Nat)),
    (kittyChunkLoop w h L).map KittyChunk.data = L
| [] => by simp [kittyChunkLoop]
| [c] => by simp [kittyChunkLoop]
| c :: c2 :: rest => by
  simp only [kittyChunkLoop, List.map_cons, List.cons.injEq]
  exact ⟨trivial, kittyChunkLoop_map_data w h (c2 :: rest)⟩

theorem kittyChunkLoop_length (w h : Nat) : ∀ (L : List (List Nat)),
    (kittyChunkLoop w h L).length = L.length
| [] => by simp [kittyChunkLoop]
| [c] => by simp [kittyChunkLoop]
| c :: c2 :: rest => by
  simp only [kittyChunkLoop, List.length_cons]
  rw [kittyChunkLoop_length w h (c2 :: rest)]
  simp

theorem kittyChunkLoop_map_more (w h : Nat) : ∀ (L : List (List Nat)), L ≠ [] →
    (kittyChunkLoop w h L).map KittyChunk.more = List.replicate (L.length - 1) 1 ++ [0]
| [], hL => absurd rfl hL
| [c], _ => by simp [kittyChunkLoop]
| c :: c2 :: rest, _ => by
  simp only [kittyChunkLoop, List.map_cons]
  rw [kittyChunkLoop_map_more w h (c2 :: rest) (by simp)]
  simp [List.replicate_succ]

/-! ## Claims -/

/-- C3: the cache maintains the invariant that `order` holds exactly the
keys of `entries` (most recently set at the front, shown here as: the
just-set key heads `order` whenever it survived eviction) and never more
than `max_entries` keys, across every `get`/`set`; consequently,
inserting `m + j` distinct keys into an empty cache of capacity `m`
leaves exactly `m` entries, with the `j` least-recently-inserted keys
absent and the other `m` present. -/
theorem cache_lru_invariant_and_eviction :
    (∀ (c : Cache) (op : CacheOp), CacheInv c → CacheInv (applyOp c op)) ∧
    (∀ (c : Cache) (now : Nat) (key payload : Str), CacheInv c →
      containsA key (c.set now key payload).entries = true →
      (c.set now key payload).order.head? = some key) ∧
    (∀ (m j ttl now : Nat) (pf : Str → Str) (ks : List Str),
      ks.Nodup → ks.length = m + j →
      (applyOps (Cache.new m ttl) (ks.map (fun k => CacheOp.set now k (pf k)))).entries.length
          = m ∧
      (∀ k ∈ ks.take j, containsA k
        (applyOps (Cache.new m ttl) (ks.map (fun k => CacheOp.set now k (pf k)))).entries
          = false) ∧
      (∀ k ∈ ks.drop j, containsA k
        (applyOps (Cache.new m ttl) (ks.map (fun k => CacheOp.set now k (pf k)))).entries
          = true)) := by
  refine ⟨?_, ?_, ?_⟩
  · intro c op h
    cases op with
    | get _ _ => exact h
    | set now key payload => exact setInv c now key payload h
  · intro c now key payload h hc
    have ho := set_order c now key payload
    rcases hm : c.max_entries with _ | mm
    · exfalso
      have hinv := setInv c now key payload h
      have hkeys : key ∈ keysOf (c.set now key payload).entries := by
        rw [← lookupA_isSome_iff_mem_keys]
        exact hc
      have hmemo := (hinv.2.2.1 key).mpr hkeys
      rw [ho, hm] at hmemo
      simp at hmemo
    · rw [ho, hm, List.take_succ_cons]
      rfl
  · intro m j ttl now pf ks hnd hlen
    obtain ⟨ho, hinv, hm⟩ := insert_distinct_state m ttl now pf ks hnd
    have hmem : ∀ k, containsA k
        (applyOps (Cache.new m ttl) (ks.map (fun k => CacheOp.set now k (pf k)))).entries = true ↔
        k ∈ ks.drop j := by
      intro k
      rw [show containsA k
          (applyOps (Cache.new m ttl) (ks.map (fun k => CacheOp.set now k (pf k)))).entries =
          (lookupA k
            (applyOps (Cache.new m ttl) (ks.map (fun k => CacheOp.set now k (pf k)))).entries).isSome
          from rfl]
      rw [lookupA_isSome_iff_mem_keys, ← hinv.2.2.1 k, ho, List.take_reverse, List.mem_reverse]
      have hj : ks.length - m = j := by omega
      rw [hj]
    refine ⟨?_, ?_, ?_⟩
    · have hperm :
          (applyOps (Cache.new m ttl) (ks.map (fun k => CacheOp.set now k (pf k)))).order.Perm
          (keysOf (applyOps (Cache.new m ttl) (ks.map (fun k => CacheOp.set now k (pf k)))).entries) := by
        apply List.perm_of_nodup_nodup_toFinset_eq hinv.1 hinv.2.1
        ext a
        simp only [List.mem_toFinset]
        exact hinv.2.2.1 a
      have h1 := hperm.length_eq
      have h2 : (keysOf
          (applyOps (Cache.new m ttl) (ks.map (fun k => CacheOp.set now k (pf k)))).entries).length =
          (applyOps (Cache.new m ttl) (ks.map (fun k => CacheOp.set now k (pf k)))).entries.length :=
        List.length_map _ _
      rw [← h2, ← h1, ho, List.length_take, List.length_reverse, hlen]
      exact min_eq_left (by omega)
    · intro k hk
      have hknotin : k ∉ ks.drop j := by
        have hsplit : (ks.take j ++ ks.drop j).Nodup := by
          rw [List.take_append_drop]
          exact hnd
        exact fun hcon => (List.disjoint_of_nodup_append hsplit) hk hcon
      cases hcc : containsA k
          (applyOps (Cache.new m ttl) (ks.map (fun k => CacheOp.set now k (pf k)))).entries with
      | false => rfl
      | true => exact absurd ((hmem k).mp hcc) hknotin
    · intro k hk
      exact (hmem k).mpr hk

/-- C3 witness: the invariant survives a `set` on the empty capacity-2
cache; the just-set key is at the front; and inserting the 3 distinct
keys `[1]`, `[2]`, `[3]` into an empty capacity-2 cache leaves 2 entries
with the first-inserted key `[1]` absent and `[2]`, `[3]` present. -/
theorem cache_lru_invariant_and_eviction_witness :
    CacheInv (applyOp (Cache.new 2 10) (CacheOp.set 0 [1] [9])) ∧
    ((Cache.new 2 10).set 0 [1] [9]).order.head? = some [1] ∧
    ((applyOps (Cache.new 2 10)
        ([[1], [2], [3]].map (fun k => CacheOp.set 0 k k))).entries.length = 2 ∧
      (∀ k ∈ [[1], [2], [3]].take 1, containsA k
        (applyOps (Cache.new 2 10)
          ([[1], [2], [3]].map (fun k => CacheOp.set 0 k k))).entries = false) ∧
      (∀ k ∈ [[1], [2], [3]].drop 1, containsA k
        (applyOps (Cache.new 2 10)
          ([[1], [2], [3]].map (fun k => CacheOp.set 0 k k))).entries = true)) := by
  have hinv : CacheInv (Cache.new 2 10) :=
    ⟨List.nodup_nil, List.nodup_nil, fun _ => Iff.rfl, Nat.zero_le _⟩
  exact ⟨cache_lru_invariant_and_eviction.1 (Cache.new 2 10) (CacheOp.set 0 [1] [9]) hinv,
    cache_lru_invariant_and_eviction.2.1 (Cache.new 2 10) 0 [1] [9] hinv (by decide),
    cache_lru_invariant_and_eviction.2.2 2 1 10 0 (fun k => k) [[1], [2], [3]]
      (by decide) (by decide)⟩

/-- C7: kitty-protocol encoding base64-encodes the payload and splits the
base64 text into 4096-byte chunks (reassembling the chunks restores the
whole base64 text and no chunk exceeds 4096 bytes), the `m` flag is 1 on
every chunk except the last where it is 0, and a 9000-byte image yields a
12000-character base64 payload, hence exactly 3 chunks flagged 1, 1, 0. -/
theorem kitty_chunking (bytes : List Nat) (width height : Nat) :
    ((write_kitty_image bytes width height).map KittyChunk.data).flatten = base64Encode bytes ∧
    (∀ ch ∈ write_kitty_image bytes width height, ch.data.length ≤ kitty_chunk_size) ∧
    (bytes ≠ [] →
      (write_kitty_image bytes width height).map KittyChunk.more =
        List.replicate ((write_kitty_image bytes width height).length - 1) 1 ++ [0]) ∧
    (bytes.length = 9000 →
      (base64Encode bytes).length = 12000 ∧
      (write_kitty_image bytes width height).length = 3 ∧
      (write_kitty_image bytes width height).map KittyChunk.more = [1, 1, 0]) := by
  have hdata := kittyChunkLoop_map_data width height (chunks4096 (base64Encode bytes))
  have hlen := kittyChunkLoop_length width height (chunks4096 (base64Encode bytes))
  have hcount := chunksStep_length (base64Encode bytes).length (base64Encode bytes) (le_refl _)
  have hjoin := chunksStep_join (base64Encode bytes).length (base64Encode bytes) (le_refl _)
  refine ⟨?_, ?_, ?_, ?_⟩
  · simp only [write_kitty_image]
    rw [hdata]
    exact hjoin
  · intro ch hch
    simp only [write_kitty_image] at hch
    have hmem : ch.data ∈ chunks4096 (base64Encode bytes) := by
      rw [← hdata]
      exact List.mem_map_of_mem _ hch
    simp only [chunks4096] at hmem
    exact chunksStep_chunk_le _ _ _ hmem
  · intro hne
    have hb : 0 < (base64Encode bytes).length := by
      rw [base64Encode_length]
      have : 0 < bytes.length := List.length_pos.mpr hne
      omega
    have hcnt_pos : 0 < (chunks4096 (base64Encode bytes)).length := by
      simp only [chunks4096]
      rw [hcount]
      simp only [kitty_chunk_size]
      omega
    have hLne : chunks4096 (base64Encode bytes) ≠ [] := by
      intro h
      rw [h] at hcnt_pos
      simp at hcnt_pos
    simp only [write_kitty_image]
    rw [kittyChunkLoop_map_more width height _ hLne, hlen]
  · intro h9
    have hblen : (base64Encode bytes).length = 12000 := by
      rw [base64Encode_length, h9]
    have hcnt : (chunks4096 (base64Encode bytes)).length = 3 := by
      simp only [chunks4096]
      rw [hcount, hblen]
      simp [kitty_chunk_size]
    have hLne : chunks4096 (base64Encode bytes) ≠ [] := by
      intro h
      rw [h] at hcnt
      simp at hcnt
    refine ⟨hblen, ?_, ?_⟩
    · simp only [write_kitty_image]
      rw [hlen]
      exact hcnt
    · simp only [write_kitty_image]
      rw [kittyChunkLoop_map_more width height _ hLne, hcnt]
      rfl

/-- C7 witness: the 9000-byte all-zero image encodes to a 12000-character
base64 payload, split into 3 chunks with `m` flags 1, 1, 0. -/
theorem kitty_chunking_witness :
    (base64Encode (List.replicate 9000 0)).length = 12000 ∧
    (write_kitty_image (List.replicate 9000 0) 4 6).length = 3 ∧
    (write_kitty_image (List.replicate 9000 0) 4 6).map KittyChunk.more = [1, 1, 0] :=
  (kitty_chunking (List.replicate 9000 0) 4 6).2.2.2 (by rw [List.length_replicate])

/-- C8: account identifier normalization — every value at or above the
platform-id offset has the offset subtracted into a 32-bit account id
(the offset itself maps to 0), every value within 32-bit range maps to
itself, and every value above 32-bit range but below the offset is
rejected with an error. -/
theorem parse_account_id_normalization :
    (∀ v : Nat, v < 2 ^ 64 → STEAMID64_BASE ≤ v →
      parse_account_id v = .ok ((v - STEAMID64_BASE) % 2 ^ 32)) ∧
    parse_account_id STEAMID64_BASE = .ok 0 ∧
    (∀ v : Nat, v ≤ u32_max → parse_account_id v = .ok v) ∧
    (∀ v : Nat, u32_max < v → v < STEAMID64_BASE →
      parse_account_id v = .error "SteamID too large") := by
  refine ⟨?_, ?_, ?_, ?_⟩
  · intro v _ hv
    simp [parse_account_id, hv]
  · simp [parse_account_id]
  · intro v hv
    have h1 : ¬ STEAMID64_BASE ≤ v := by
      simp only [STEAMID64_BASE, u32_max] at *
      omega
    simp [parse_account_id, h1, hv]
  · intro v h1 h2
    have h3 : ¬ STEAMID64_BASE ≤ v := by omega
    have h4 : ¬ v ≤ u32_max := by omega
    simp [parse_account_id, h3, h4]

/-- C8 witness: the offset maps to 0, `135664392` maps to itself, and
`4294967296` (above 32-bit range, below the offset) is rejected. -/
theorem parse_account_id_normalization_witness :
    parse_account_id STEAMID64_BASE = .ok 0 ∧
    parse_account_id 135664392 = .ok 135664392 ∧
    parse_account_id 4294967296 = .error "SteamID too large" :=
  ⟨parse_account_id_normalization.2.1,
   parse_account_id_normalization.2.2.1 135664392 (by decide),
   parse_account_id_normalization.2.2.2 4294967296 (by decide) (by decide)⟩

/-- C10: at or above the offset the result is `Ok((v - offset) mod 2^32)`
— the difference silently wraps through the truncating `as u32` cast —
and the "SteamID too large" rejection is reachable exactly for inputs
strictly between `u32::MAX` and the offset. -/
theorem parse_account_id_truncating_wrap :
    (∀ v : Nat, v < 2 ^ 64 → STEAMID64_BASE ≤ v →
      parse_account_id v = .ok ((v - STEAMID64_BASE) % 2 ^ 32)) ∧
    (∀ (v : Nat) (e : String), parse_account_id v = .error e →
      u32_max < v ∧ v < STEAMID64_BASE) := by
  constructor
  · intro v _ hv
    simp [parse_account_id, hv]
  · intro v e h
    by_cases h1 : STEAMID64_BASE ≤ v
    · simp [parse_account_id, h1] at h
    · by_cases h2 : v ≤ u32_max
      · simp [parse_account_id, h1, h2] at h
      · exact ⟨by omega, by omega⟩

/-- C10 witness: offset + 2^32 wraps to account id 0 instead of being
rejected, while an error input indeed lies between `u32::MAX` and the
offset. -/
theorem parse_account_id_truncating_wrap_witness :
    parse_account_id 76561202255233024 = .ok ((76561202255233024 - STEAMID64_BASE) % 2 ^ 32) ∧
    (u32_max < 4294967296 ∧ 4294967296 < STEAMID64_BASE) :=
  ⟨parse_account_id_truncating_wrap.1 76561202255233024 (by decide) (by decide),
   parse_account_id_truncating_wrap.2 4294967296 "SteamID too large" rfl⟩

/-- C9: applying a `PlayerAvatarLoaded` message whose account id differs
from the currently selected account id leaves the displayed avatar URL
unchanged. -/
theorem avatar_loaded_preserves_avatar_url (app : AppAvatarState) (account_id : Nat)
    (result : Except String (Option Str))
    (_h : app.account_id ≠ some account_id) :
    (handle_message_player_avatar_loaded app account_id result).avatar_url =
      app.avatar_url := by
  cases result with
  | error e => rfl
  | ok o => cases o <;> rfl

/-- C9 witness: an avatar loaded for account 2 while account 1 is
selected leaves the displayed avatar URL untouched. -/
theorem avatar_loaded_preserves_avatar_url_witness :
    (handle_message_player_avatar_loaded
        ⟨some 1, some [5], false, [], [], []⟩ 2 (.ok (some [7]))).avatar_url =
      (⟨some 1, some [5], false, [], [], []⟩ : AppAvatarState).avatar_url :=
  avatar_loaded_preserves_avatar_url
    ⟨some 1, some [5], false, [], [], []⟩ 2 (.ok (some [7])) (by decide)

/-- C1: when no fresh cache hit exists and both attempts fail — the
first retryably (any non-success status, or a retryable transport
error), the second in any way — `get_json` performs exactly 2 HTTP sends
and 2 permit acquisitions, returns the captured cache payload decoded
when an entry existed (fresh or stale), and otherwise returns an error
value rather than panicking. -/
theorem get_json_retry_exhaustion {T : Type} (decode : Str → Except String T) (url : Str)
    (query : Option (List (Str × Str))) (transport : Nat → FetchOutcome)
    (st : ClientState) (now : Nat)
    (hfresh : (st.cache.get now (build_cache_key url query)).map Prod.snd ≠ some true)
    (h1 : (transport 1).isRetryableFailure = true)
    (h2 : (transport 2).isFailure = true) :
    (get_json decode url query transport st now).sends = 2 ∧
    (get_json decode url query transport st now).permits = 2 ∧
    (∀ p fr, st.cache.get now (build_cache_key url query) = some (p, fr) →
      (get_json decode url query transport st now).result = decodeRes decode p) ∧
    (st.cache.get now (build_cache_key url query) = none →
      ∃ e, (get_json decode url query transport st now).result = Except.error e) := by
  cases hc : st.cache.get now (build_cache_key url query) with
  | none =>
    have hg : get_json decode url query transport st now =
        getJsonLoop decode (build_cache_key url query) transport none 2 1 st now := by
      simp only [get_json, hc]
    obtain ⟨hs, hp, hr⟩ := getJsonLoop_retry_failure decode (build_cache_key url query)
      transport none st now h1 h2
    rw [hg, hs, hp]
    refine ⟨rfl, rfl, ?_, ?_⟩
    · intro p fr hpf
      exact Option.noConfusion hpf
    · intro _
      rw [hr]
      cases hT : transport 2 with
      | success body =>
        rw [hT] at h2
        simp [FetchOutcome.isFailure] at h2
      | httpError status => exact ⟨.httpStatus status, by simp [fallbackRes, hT]⟩
      | transportError r => exact ⟨.transport, by simp [fallbackRes, hT]⟩
  | some pf =>
    rcases pf with ⟨p, fr⟩
    cases fr with
    | true =>
      rw [hc] at hfresh
      simp at hfresh
    | false =>
      have hg : get_json decode url query transport st now =
          getJsonLoop decode (build_cache_key url query) transport (some (p, false)) 2 1 st now := by
        simp only [get_json, hc]
      obtain ⟨hs, hp, hr⟩ := getJsonLoop_retry_failure decode (build_cache_key url query)
        transport (some (p, false)) st now h1 h2
      rw [hg, hs, hp]
      refine ⟨rfl, rfl, ?_, ?_⟩
      · intro p' fr' hpf
        injection hpf with hpf
        injection hpf with hp1 hp2
        subst hp1
        rw [hr]
        simp [fallbackRes]
      · intro hno
        exact Option.noConfusion hno

/-- C1 witness: with a stale cached entry for the key and a transport
that always answers HTTP 500, the call makes exactly 2 sends, acquires
2 permits, and serves the decoded stale payload. -/
theorem get_json_retry_exhaustion_witness :
    (get_json (fun b => Except.ok b) [9] none (fun _ => FetchOutcome.httpError 500)
        ⟨(Cache.new 4 10).set 0 [9] [1, 2], RateLimiter.new 5 0⟩ 50).sends = 2 ∧
    (get_json (fun b => Except.ok b) [9] none (fun _ => FetchOutcome.httpError 500)
        ⟨(Cache.new 4 10).set 0 [9] [1, 2], RateLimiter.new 5 0⟩ 50).permits = 2 ∧
    (get_json (fun b => Except.ok b) [9] none (fun _ => FetchOutcome.httpError 500)
        ⟨(Cache.new 4 10).set 0 [9] [1, 2], RateLimiter.new 5 0⟩ 50).result =
      decodeRes (fun b => Except.ok b) [1, 2] := by
  have h := get_json_retry_exhaustion (fun b => Except.ok b) [9] none
    (fun _ => FetchOutcome.httpError 500)
    ⟨(Cache.new 4 10).set 0 [9] [1, 2], RateLimiter.new 5 0⟩ 50
    (by decide) (by decide) (by decide)
  exact ⟨h.1, h.2.1, h.2.2.1 [1, 2] false (by decide)⟩

/-- C5: a fresh cache hit short-circuits `get_json`: the decoded cached
payload is returned with zero HTTP sends and zero permit acquisitions,
and the client state — rate limiter included — and the clock are
unchanged. -/
theorem get_json_fresh_hit {T : Type} (decode : Str → Except String T) (url : Str)
    (query : Option (List (Str × Str))) (transport : Nat → FetchOutcome)
    (st : ClientState) (now : Nat) (payload : Str)
    (h : st.cache.get now (build_cache_key url query) = some (payload, true)) :
    get_json decode url query transport st now =
      { result := decodeRes decode payload, state := st, now := now,
        sends := 0, permits := 0 } := by
  simp only [get_json, h]

/-- C5 witness: a fresh hit (entry set at time 0, read at time 3, TTL 10)
is served from cache with no send, no permit, and unchanged state. -/
theorem get_json_fresh_hit_witness :
    get_json (fun b => Except.ok b) [9] none (fun _ => FetchOutcome.transportError true)
        ⟨(Cache.new 4 10).set 0 [9] [1, 2], RateLimiter.new 2 0⟩ 3 =
      { result := decodeRes (fun b => Except.ok b) [1, 2],
        state := ⟨(Cache.new 4 10).set 0 [9] [1, 2], RateLimiter.new 2 0⟩, now := 3,
        sends := 0, permits := 0 } :=
  get_json_fresh_hit (fun b => Except.ok b) [9] none (fun _ => FetchOutcome.transportError true)
    ⟨(Cache.new 4 10).set 0 [9] [1, 2], RateLimiter.new 2 0⟩ 3 [1, 2] (by decide)

/-- C2: a limiter created with `perMinute` tokens serves `perMinute`
consecutive `acquire` calls inside one 60-second window immediately
(`None`: no wait), and the `(perMinute+1)`th call at time `t` in that
window waits exactly `60s - (t - lastRefill)` (floored at zero by
saturating subtraction), refills the bucket, and returns the wait. -/
theorem rate_limiter_burst_then_throttle (pm t0 t : Nat) (ts : List Nat)
    (hlen : ts.length = pm)
    (hw : ∀ t' ∈ ts, t0 ≤ t' ∧ t' < t0 + window_ms)
    (ht0 : t0 ≤ t) (ht1 : t < t0 + window_ms) :
    (acquireSeq (RateLimiter.new pm t0) ts).2 = List.replicate pm none ∧
    ((acquireSeq (RateLimiter.new pm t0) ts).1).acquire t =
      (⟨pm, pm, t0 + window_ms⟩, some (window_ms - (t - t0)), t0 + window_ms) := by
  have hseq := acquireSeq_no_wait pm t0 ts pm (le_of_eq hlen) hw
  have hnew : RateLimiter.new pm t0 = ⟨pm, pm, t0⟩ := rfl
  have hz : pm - ts.length = 0 := by omega
  constructor
  · rw [hnew, hseq, hlen]
  · rw [hnew, hseq]
    simp only [hz]
    have hre : RateLimiter.refill ⟨pm, 0, t0⟩ t = ⟨pm, 0, t0⟩ := by
      simp only [RateLimiter.refill]
      rw [if_neg]
      omega
    simp only [RateLimiter.acquire, hre]
    rw [if_pos trivial]
    have hnow : t + (window_ms - (t - t0)) = t0 + window_ms := by omega
    rw [hnow]
    have hre2 : RateLimiter.refill ⟨pm, 0, t0⟩ (t0 + window_ms) = ⟨pm, pm, t0 + window_ms⟩ := by
      simp only [RateLimiter.refill]
      rw [if_pos]
      omega
    rw [hre2]

/-- C2 witness: with `perMinute = 2` and creation at time 0, the calls at
times 1 and 2 return immediately, and the third call at time 30 waits
`60000 - 30` milliseconds and refills. -/
theorem rate_limiter_burst_then_throttle_witness :
    (acquireSeq (RateLimiter.new 2 0) [1, 2]).2 = List.replicate 2 none ∧
    ((acquireSeq (RateLimiter.new 2 0) [1, 2]).1).acquire 30 =
      (⟨2, 2, 0 + window_ms⟩, some (window_ms - (30 - 0)), 0 + window_ms) :=
  rate_limiter_burst_then_throttle 2 0 30 [1, 2] rfl (by decide) (by decide) (by decide)

/-- C6: the request key is invariant under reordering of the query
parameters: permuted parameter lists produce the same key. -/
theorem build_cache_key_perm_invariant (url : Str) (q1 q2 : List (Str × Str))
    (h : q1.Perm q2) :
    build_cache_key url (some q1) = build_cache_key url (some q2) := by
  simp only [build_cache_key]
  rw [sortStrs_eq_of_perm (h.map kvBytes)]

/-- C6 witness: `buildKey(url, [("b","2"),("a","1")])` equals
`buildKey(url, [("a","1"),("b","2")])`, with `"a" = [97]`, `"b" = [98]`,
`"1" = [49]`, `"2" = [50]`, `url = [117]`. -/
theorem build_cache_key_perm_invariant_witness :
    build_cache_key [117] (some [([98], [50]), ([97], [49])]) =
      build_cache_key [117] (some [([97], [49]), ([98], [50])]) :=
  build_cache_key_perm_invariant [117]
    [([98], [50]), ([97], [49])] [([97], [49]), ([98], [50])] (by decide)

/-- C4: `get` on a present key always returns the stored payload, with
`isFresh` true exactly when the elapsed time since the entry was set is
at most `ttl`; past the TTL the payload is still returned, flagged
stale, never dropped. -/
theorem cache_get_freshness (c : Cache) (key : Str) (now : Nat) (e : CacheEntry)
    (h : lookupA key c.entries = some e) :
    c.get now key = some (e.payload, decide (now - e.inserted_at ≤ c.ttl)) ∧
    ((c.get now key).map Prod.snd = some true ↔ now - e.inserted_at ≤ c.ttl) ∧
    (c.ttl < now - e.inserted_at → c.get now key = some (e.payload, false)) := by
  have hg : c.get now key = some (e.payload, decide (now - e.inserted_at ≤ c.ttl)) := by
    simp [Cache.get, h]
  refine ⟨hg, ?_, ?_⟩
  · rw [hg]
    simp
  · intro hlt
    have hd : (decide (now - e.inserted_at ≤ c.ttl)) = false := by
      simp only [decide_eq_false_iff_not]
      omega
    rw [hg, hd]

/-- C4 witness: the entry set at time 0 with TTL 10 is served stale
(payload intact, `isFresh = false`) when read at time 11. -/
theorem cache_get_freshness_witness :
    ((Cache.new 2 10).set 0 [1] [100]).get 11 [1] =
      some ([100], decide (11 - (0 : Nat) ≤ ((Cache.new 2 10).set 0 [1] [100]).ttl)) ∧
    ((((Cache.new 2 10).set 0 [1] [100]).get 11 [1]).map Prod.snd = some true ↔
      11 - (0 : Nat) ≤ ((Cache.new 2 10).set 0 [1] [100]).ttl) ∧
    (((Cache.new 2 10).set 0 [1] [100]).ttl < 11 - (0 : Nat) →
      ((Cache.new 2 10).set 0 [1] [100]).get 11 [1] = some ([100], false)) :=
  cache_get_freshness ((Cache.new 2 10).set 0 [1] [100]) [1] 11 ⟨0, [100]⟩ (by decide)

end Dota2Tui
